import Mathlib

/-!
Verification of the OCR-Chatbot repository's specification claims against a
shallow embedding of its Python source.

Part 1 (`src/Part1/utils.py`): JSON flattening and ground-truth validation.
Part 2 (`src/Part2/app/utils.py`, `src/Part2/app/routes.py`): nearest-match
retrieval over an embedding table, field validation, and the two HTTP
endpoints `collect_user_info` and `answer_query`.

Modelling conventions:
* Python `dict`s are association lists with unique keys; `d[k] = v`
  (`pyDictSet`) overwrites an existing key in place and otherwise appends,
  matching CPython's insertion-order semantics.
* JSON records with string leaves are the inductive type `J`.
* Machine floats do not occur in the claims: embedding distances are `ℚ`,
  and the cosine distance itself (computed by `scipy` in the source) is an
  abstract parameter `dist`, since the claims concern only how distances
  are filtered and sorted.
* Characters are modelled at the Unicode code-point level; `str.lower`,
  `str.isalpha` and the regex class `\d` are modelled on their ASCII
  fragment (no claim is evaluated at a non-ASCII digit or cased letter).
-/

/-- Python `dict.get(key)`: first (and, by the dict invariant, only)
binding of `key` in the association list. -/
def pyDictGet {κ α : Type} [DecidableEq κ] : List (κ × α) → κ → Option α
  | [], _ => none
  | (k, v) :: rest, key => if k = key then some v else pyDictGet rest key

/-- Python `d[key] = v`: overwrite in place if the key is present,
otherwise append the new binding, as CPython dicts do. -/
def pyDictSet {κ α : Type} [DecidableEq κ] (d : List (κ × α)) (k : κ) (v : α) :
    List (κ × α) :=
  if (pyDictGet d k).isSome then
    d.map (fun kv => if kv.1 = k then (k, v) else kv)
  else
    d ++ [(k, v)]

/-- Python `d.update(items)`: set every binding of `items` in order. -/
def pyDictSetMany {κ α : Type} [DecidableEq κ] (d : List (κ × α))
    (items : List (κ × α)) : List (κ × α) :=
  items.foldl (fun acc kv => pyDictSet acc kv.1 kv.2) d

/-- A JSON value as `src/Part1/utils.py` manipulates it: either a string
leaf or a nested object (a top-level record is a `List (String × J)`).
Arrays and non-string scalars do not occur in the records the claims are
about. -/
inductive J where
  | str : String → J
  | obj : List (String × J) → J

/-- The `new_key` computation of `flatten_json`:
`f"{parent_key}.{key}" if parent_key else key`. -/
def joinKey (parent_key key : String) : String :=
  if parent_key = "" then key else parent_key ++ "." ++ key

/-- The loop body of `flatten_json` (src/Part1/utils.py lines 22-34): the
accumulator `items` is the dict being built; a nested dict is flattened
into a fresh dict and merged with `items.update`, a leaf is assigned. -/
def flattenLoop : List (String × J) → String → List (String × String) →
    List (String × String)
  | [], _, items => items
  | (key, J.str v) :: rest, parent_key, items =>
      flattenLoop rest parent_key (pyDictSet items (joinKey parent_key key) v)
  | (key, J.obj sub) :: rest, parent_key, items =>
      flattenLoop rest parent_key
        (pyDictSetMany items (flattenLoop sub (joinKey parent_key key) []))

/-- `flatten_json(data, parent_key="")` from src/Part1/utils.py. -/
def flatten_json (data : List (String × J)) (parent_key : String) :
    List (String × String) :=
  flattenLoop data parent_key []

/-- Replace every occurrence of the character `a` by `b`.  Python
`str.replace` restricted to the single-character patterns the source
uses (in `normalize_keys`, and the underscore-to-space rewrite of
`validate_field` error labels), where both semantics coincide. -/
def charReplace (s : String) (a b : Char) : String :=
  ⟨s.data.map (fun c => if c = a then b else c)⟩

/-- The key transformation of `normalize_keys` (src/Part1/utils.py lines
8-19): two chained `key.replace` calls send the gershayim U+05F4 and the
apostrophe U+0027 both to a straight double quote U+0022. -/
def normalizeKey (k : String) : String :=
  charReplace (charReplace k '\u05F4' '\u0022') '\u0027' '\u0022'

/-- The loop of `normalize_keys` on one object: the source is a dict
comprehension, so each rewritten binding is inserted into a fresh dict
in iteration order — when two sibling keys normalize to the same
string, the later value overwrites the earlier one in place (the first
key's position is kept and the earlier subtree is discarded), which
`pyDictSet` models. -/
def normFieldsLoop : List (String × J) → List (String × J) → List (String × J)
  | [], acc => acc
  | (k, J.str s) :: rest, acc =>
      normFieldsLoop rest (pyDictSet acc (normalizeKey k) (J.str s))
  | (k, J.obj sub) :: rest, acc =>
      normFieldsLoop rest
        (pyDictSet acc (normalizeKey k) (J.obj (normFieldsLoop sub [])))

/-- `normalize_keys` on a record: rewrites every key at every nesting
level via the dict comprehension (the source's list branch does not
occur on string-leaf records). -/
def normFields (fs : List (String × J)) : List (String × J) :=
  normFieldsLoop fs []

/-- The result record of `validate_with_ground_truth`; a mismatched field
is reported as (key, expected, actual). -/
structure ValidationResults where
  accuracy : ℚ
  completeness : ℚ
  missing_fields : List String
  mismatched_fields : List (String × String × String)
deriving DecidableEq

/-- `validate_with_ground_truth` (src/Part1/utils.py lines 37-87).
Both records are key-normalized and flattened; ground-truth entries are
compared against `flat_json_data.get(key, "")`; `missing_fields` is the
key-set difference (modelled as an ordered filter — the dict invariant
makes the flattened key lists duplicate-free).  The accuracy division is
guarded by `total_fields > 0`; the completeness division is not, so a
ground truth that flattens to nothing raises `ZeroDivisionError`,
modelled as `Except.error`. -/
def validate_with_ground_truth (json_data ground_truth : List (String × J)) :
    Except String ValidationResults :=
  let flat_json_data := flatten_json (normFields json_data) ""
  let flat_ground_truth := flatten_json (normFields ground_truth) ""
  let total_fields := flat_ground_truth.length
  let extracted_keys := flat_json_data.map Prod.fst
  let gt_keys := flat_ground_truth.map Prod.fst
  let missing_keys := gt_keys.filter (fun k => !(extracted_keys.contains k))
  let correct_count :=
    flat_ground_truth.countP (fun kv => ((pyDictGet flat_json_data kv.1).getD "") == kv.2)
  let mismatched :=
    (flat_ground_truth.filter
        (fun kv => !(((pyDictGet flat_json_data kv.1).getD "") == kv.2))).map
      (fun kv => (kv.1, kv.2, (pyDictGet flat_json_data kv.1).getD ""))
  let accuracy : ℚ :=
    if 0 < total_fields then (correct_count : ℚ) / (total_fields : ℚ) * 100 else 0
  if total_fields = 0 then
    Except.error "ZeroDivisionError: division by zero"
  else
    Except.ok ⟨accuracy,
      ((total_fields : ℚ) - (missing_keys.length : ℚ)) / (total_fields : ℚ) * 100,
      missing_keys, mismatched⟩

/-! ## Python string helpers used by `src/Part2/app/routes.py` -/

/-- Whitespace as Python `str.strip` and `int()` treat it (ASCII part). -/
def isPySpace (c : Char) : Bool :=
  c = ' ' || c = '\t' || c = '\n' || c = '\r' || c = '\x0b' || c = '\x0c'

/-- Python `str.strip()`. -/
def pyStrip (s : String) : String :=
  ⟨((s.data.dropWhile isPySpace).reverse.dropWhile isPySpace).reverse⟩

/-- Python `str.lower()` on its ASCII fragment (Hebrew letters, the only
non-ASCII data in the valid-value lists, are caseless and unaffected). -/
def pyLower (s : String) : String :=
  ⟨s.data.map Char.toLower⟩

/-- Python `str.capitalize()` on its ASCII fragment: first character
upper-cased, the rest lower-cased. -/
def pyCapitalize (s : String) : String :=
  match s.data with
  | [] => ""
  | c :: rest => ⟨Char.toUpper c :: rest.map Char.toLower⟩

/-- Python `str.isalpha()` on its ASCII fragment: non-empty and all
alphabetic. -/
def pyIsAlpha (s : String) : Bool :=
  !s.data.isEmpty && s.data.all Char.isAlpha

/-- Decimal digit accumulation for Python `int()`, with its underscore
rule: a single `_` is allowed between two digits, nowhere else. -/
def pyIntDigits : List Char → Nat → Option Nat
  | [], acc => some acc
  | '_' :: c :: rest, acc =>
      if c.isDigit then pyIntDigits rest (acc * 10 + (c.toNat - 48)) else none
  | ['_'], _ => none
  | c :: rest, acc =>
      if c.isDigit then pyIntDigits rest (acc * 10 + (c.toNat - 48)) else none

/-- Sign and digits of a Python integer literal (after stripping). -/
def pyIntCore : List Char → Option Int
  | [] => none
  | '+' :: c :: rest =>
      if c.isDigit then (pyIntDigits rest (c.toNat - 48)).map Int.ofNat else none
  | '-' :: c :: rest =>
      if c.isDigit then (pyIntDigits rest (c.toNat - 48)).map (fun n => -(n : Int))
      else none
  | c :: rest =>
      if c.isDigit then (pyIntDigits rest (c.toNat - 48)).map Int.ofNat else none

/-- Python `int(s)` for a decimal string: surrounding whitespace is
stripped, then an optional sign and a digit run (with single underscores
between digits); `none` models `ValueError`.  Modelled on ASCII digits
(CPython additionally accepts other Unicode decimal digits; no claim is
evaluated at one). -/
def pyInt (s : String) : Option Int :=
  pyIntCore (pyStrip s).data

/-- Python `re.match(r"^\d{9}$", s)` as a Boolean.  `$` matches at the
end of the string or just before a newline at the end of the string, so
the pattern also accepts nine digits followed by a single trailing
newline.  `\d` is modelled as the ASCII digits. -/
def reMatchDigits9 (s : String) : Bool :=
  let core := match s.data.getLast? with
    | some c => if c = '\n' then s.data.dropLast else s.data
    | none => s.data
  core.length = 9 && core.all Char.isDigit

/-! ## `validate_field` and the valid-value lists (src/Part2/app/routes.py lines 410-471) -/

/-- The required-field checklist of `collect_user_info`. -/
def requiredFields : List String :=
  ["first_name", "last_name", "id_number", "gender", "age",
   "hmo_name", "insurance_membership_tier", "hmo_card_number"]

/-- valid_genders, as enumerated in the source. -/
def valid_genders : List String :=
  ["male", "female", "other", "זכר", "נקבה", "אחר", "Male", "Female", "Other"]

/-- valid_hmos, as enumerated in the source. -/
def valid_hmos : List String :=
  ["מכבי", "מאוחדת", "כללית", "maccabi", "meuhedet", "clalit",
   "Maccabi", "Clalit", "Meuhedet"]

/-- valid_tiers, as enumerated in the source. -/
def valid_tiers : List String :=
  ["זהב", "כסף", "ארד", "gold", "silver", "bronze", "Gold", "Silver", "Bronze"]

/-- The label used in the empty-value and name error messages:
underscore-to-space, then capitalized. -/
def fieldLabel (field_name : String) : String :=
  pyCapitalize (charReplace field_name '_' ' ')

/-- `validate_field(field_name, value)` from src/Part2/app/routes.py:
`some msg` is a validation failure, `none` is success.  The gender and
HMO checks compare the lower-cased value against their lists; the tier
check compares the value verbatim; the two nine-digit checks use
`re.match` with the dollar anchor (see `reMatchDigits9`). -/
def validate_field (field_name : String) (value : String) : Option String :=
  if pyStrip value = "" then
    some (fieldLabel field_name ++ " cannot be empty.")
  else if field_name = "first_name" ∨ field_name = "last_name" then
    if !pyIsAlpha value then
      some (fieldLabel field_name ++ " must contain only alphabetic characters.")
    else none
  else if field_name = "id_number" then
    if !reMatchDigits9 value then some "ID number must be exactly 9 digits."
    else none
  else if field_name = "gender" then
    if !(valid_genders.contains (pyLower value)) then
      some "Gender must be male, female, or other."
    else none
  else if field_name = "age" then
    match pyInt value with
    | none => some "Age must be a valid number."
    | some age =>
        if !(0 ≤ age ∧ age ≤ 120 : Bool) then
          some "Age must be a number between 0 and 120."
        else none
  else if field_name = "hmo_name" then
    if !(valid_hmos.contains (pyLower value)) then
      some "HMO name must be one of: Maccabi, Meuhedet, Clalit."
    else none
  else if field_name = "insurance_membership_tier" then
    if !(valid_tiers.contains value) then
      some "Insurance membership tier must be gold, silver, or bronze."
    else none
  else if field_name = "hmo_card_number" then
    if !reMatchDigits9 value then some "HMO card number must be exactly 9 digits."
    else none
  else none

/-! ## The `collect_user_info` endpoint (src/Part2/app/routes.py lines 29-277) -/

/-- The request body (`conversation_history`): `none` in `session_id`
models an absent key (`dict.get` gives Python `None`); values of
`collected_data` are strings, keyed by `Option String` because the code
can store a binding under the Python `None` key when the model reply
leaves `field_to_update` null. -/
structure ConvRequest where
  session_id : Option String
  user_input : String
  previous_gpt_output : String
  collected_data : List (Option String × String)
  confirmation_status : Bool
deriving DecidableEq

/-- The parsed model reply.  `none` in a field models an absent key (the
required-keys check tests presence of `confirmation_status`,
`message_to_user` and `transition_to_qa`); `field_to_update` and `value`
are read with `.get`, which also yields `none` for JSON null. -/
structure GptData where
  field_to_update : Option String
  value : Option String
  message_to_user : Option String
  confirmation_status : Option Bool
  transition_to_qa : Option Bool
deriving DecidableEq

/-- A JSON body returned by `collect_user_info` (always with HTTP status
200): the pending/error returns omit the `confirmation_status` and
`transition_to_qa` keys, modelled by `none`. -/
structure ChatBody where
  status : String
  response : String
  collected_data : List (Option String × String)
  confirmation_status : Option Bool
  transition_to_qa : Option Bool
deriving DecidableEq

/-- An exception escaping the `try` body of `collect_user_info`.
`httpExc` is one of the two session-id `HTTPException(400)` raises; both
happen before the local `collected_data` is assigned, so the broad
`except` handler, which references `collected_data`, raises
`UnboundLocalError` and FastAPI answers 500.  `attrError` is the
`AttributeError` from `field_name.replace` when `validate_field` is
reached with a null `field_to_update` and an empty stripped value; it
happens after `collected_data` is assigned, so the handler returns its
generic error body. -/
inductive PyExn where
  | httpExc : Nat → String → PyExn
  | attrError : PyExn
deriving DecidableEq

/-- Outcome of an HTTP endpoint: a 200 response with a JSON body, or an
error status with a detail string. -/
inductive HttpResult (β : Type) where
  | ok : β → HttpResult β
  | httpError : Nat → String → HttpResult β
deriving DecidableEq

/-- The error body of `collect_user_info` (parse failure, bad reply
structure, or the broad exception handler). -/
def mkErrorBody (msg : String) (d : List (Option String × String)) : ChatBody :=
  ⟨"error", msg, d, none, none⟩

/-- The pending body of `collect_user_info` (null value re-prompt or
validation failure). -/
def mkPendingBody (msg : String) (d : List (Option String × String)) : ChatBody :=
  ⟨"pending", msg, d, none, none⟩

/-- Lines 240-269 of the endpoint: read `confirmation_status` (default:
the request value) and `transition_to_qa` (default `False`) from the
reply, veto the transition unless the confirmation flag is set, and
return the success body. -/
def collectFinish (req : ConvRequest) (g : GptData)
    (collected : List (Option String × String)) : ChatBody :=
  let new_confirmation_status := g.confirmation_status.getD req.confirmation_status
  let transition_claimed := g.transition_to_qa.getD false
  let transition_to_qa :=
    if transition_claimed ∧ ¬new_confirmation_status then false
    else transition_claimed
  if transition_to_qa then
    ⟨"success", "Thank you for confirming! You can now ask questions.",
      collected, none, some true⟩
  else
    ⟨"success", g.message_to_user.getD "", collected,
      some new_confirmation_status, some false⟩

/-- The `try` body of `collect_user_info` (src/Part2/app/routes.py lines
58-269) as a function of the request, the UUID-validity predicate, and
the parsed model reply (`none` = `json.JSONDecodeError`).  The prompts
sent to the model are not modelled: they do not affect the returned
value.  Remote-call failures of the GPT request itself are outside the
model. -/
def collectInner (uuidOk : String → Bool) (req : ConvRequest)
    (gpt : Option GptData) : Sum PyExn ChatBody :=
  if req.session_id.getD "" = "" then
    Sum.inl (PyExn.httpExc 400 "Session ID is required.")
  else if !uuidOk (req.session_id.getD "") then
    Sum.inl (PyExn.httpExc 400 "Invalid session ID format.")
  else
    let collected_data := req.collected_data
    let missing_fields :=
      requiredFields.filter (fun f => ((pyDictGet collected_data (some f)).getD "") = "")
    match gpt with
    | none =>
        Sum.inr (mkErrorBody
          "There was an issue processing your input. Please try again." collected_data)
    | some g =>
        if !(g.confirmation_status.isSome && g.message_to_user.isSome
              && g.transition_to_qa.isSome) then
          Sum.inr (mkErrorBody
            "An unexpected issue occurred. Please try again." collected_data)
        else if missing_fields ≠ [] ∧
            (g.value = none ∨ pyStrip (g.value.getD "") = "") then
          Sum.inr (mkPendingBody
            (g.message_to_user.getD
              "Invalid input. Please provide the required information.")
            collected_data)
        else
          match g.value with
          | some s =>
              if s ≠ "" then
                let stripped := pyStrip s
                match g.field_to_update with
                | some f =>
                    match validate_field f stripped with
                    | some err =>
                        Sum.inr (mkPendingBody (err ++ " Please try again.")
                          collected_data)
                    | none =>
                        Sum.inr (collectFinish req g
                          (pyDictSet collected_data (some f) stripped))
                | none =>
                    if stripped = "" then Sum.inl PyExn.attrError
                    else
                      Sum.inr (collectFinish req g
                        (pyDictSet collected_data none stripped))
              else Sum.inr (collectFinish req g collected_data)
          | none => Sum.inr (collectFinish req g collected_data)

/-- The whole endpoint including the broad `except Exception` handler
(lines 271-277): an `HTTPException` raised before `collected_data` was
assigned makes the handler itself fail with `UnboundLocalError`, which
FastAPI surfaces as HTTP 500; the later `AttributeError` is converted to
the generic error body (HTTP 200). -/
def collect_user_info (uuidOk : String → Bool) (req : ConvRequest)
    (gpt : Option GptData) : HttpResult ChatBody :=
  match collectInner uuidOk req gpt with
  | Sum.inr body => HttpResult.ok body
  | Sum.inl PyExn.attrError =>
      HttpResult.ok (mkErrorBody
        "An internal error occurred. Please try again later." req.collected_data)
  | Sum.inl (PyExn.httpExc _ _) =>
      HttpResult.httpError 500 "Internal Server Error"

/-! ## Nearest-match retrieval (src/Part2/app/utils.py lines 159-186) -/

/-- A knowledge-base chunk: identifier, embedding vector, source text.
Embedding coordinates are `ℚ` (the claims do not depend on float
rounding). -/
structure Chunk where
  chunk_id : String
  embedding : List ℚ
  content : String
deriving DecidableEq

/-- An element of the list `find_closest_match` returns: the dict
`{"file": ..., "chunk_id": ..., "content": ..., "distance": ...}`. -/
structure KbMatch where
  file : String
  chunk_id : String
  content : String
  distance : ℚ
deriving DecidableEq

/-- Comparison key of the final `sorted(matches, key=...)`: by distance. -/
def matchLe (a b : KbMatch) : Prop :=
  a.distance ≤ b.distance

instance : DecidableRel matchLe := fun a b =>
  inferInstanceAs (Decidable (a.distance ≤ b.distance))

instance : IsTotal KbMatch matchLe :=
  ⟨fun a b => le_total a.distance b.distance⟩

instance : IsTrans KbMatch matchLe :=
  ⟨fun _ _ _ hab hbc => le_trans hab hbc⟩

/-- Every chunk of the knowledge base turned into a match record with
its distance to the query — the candidates the double loop of
`find_closest_match` scans, in scan order. -/
def candidateMatches (dist : List ℚ → List ℚ → ℚ) (query_embedding : List ℚ)
    (knowledge_base : List (String × List Chunk)) : List KbMatch :=
  (knowledge_base.map (fun fc =>
    fc.2.map (fun chunk =>
      KbMatch.mk fc.1 chunk.chunk_id chunk.content
        (dist query_embedding chunk.embedding)))).flatten

/-- `find_closest_match(query_embedding, knowledge_base, threshold=0.3)`:
scan every chunk of every file, keep those whose distance is at most the
threshold, and sort the kept matches by distance (Python sorted, a
stable sort — modelled by insertion sort, which is also stable).  The
cosine distance itself is the abstract parameter `dist`. -/
def find_closest_match (dist : List ℚ → List ℚ → ℚ) (query_embedding : List ℚ)
    (knowledge_base : List (String × List Chunk)) (threshold : ℚ) :
    List KbMatch :=
  let kept :=
    (candidateMatches dist query_embedding knowledge_base).filter
      (fun m => m.distance ≤ threshold)
  List.insertionSort matchLe kept

/-! ## The `answer_query` endpoint (src/Part2/app/routes.py lines 281-390) -/

/-- The request body `query_data`: `none` models an absent key; Python
truthiness makes an empty `user_info` dict or an empty question string
fail the basic validation as well. -/
structure QueryRequest where
  user_info : Option (List (String × String))
  question : Option String
deriving DecidableEq

/-- The success body of `answer_query`. -/
structure AnswerBody where
  status : String
  closest_match : List KbMatch
  answer : String
deriving DecidableEq

/-- The `try` body of `answer_query` (lines 307-387) as a function of
the request, the query embedding returned by the remote embedding call,
the loaded knowledge base, and the text of the remote chat completion.
It raises `HTTPException(400)` on a missing/falsy `user_info` or
`question` and `HTTPException(404)` when no chunk is within the
threshold (0.3, the default of `find_closest_match`). -/
def answerInner (dist : List ℚ → List ℚ → ℚ) (req : QueryRequest)
    (query_embedding : List ℚ) (knowledge_base : List (String × List Chunk))
    (model_answer : String) : Sum PyExn AnswerBody :=
  let uiTruthy := match req.user_info with
    | none => false
    | some ui => !ui.isEmpty
  let qTruthy := match req.question with
    | none => false
    | some q => q ≠ ""
  if !uiTruthy || !qTruthy then
    Sum.inl (PyExn.httpExc 400 "User info and question are required")
  else
    let closest_matches :=
      find_closest_match dist query_embedding knowledge_base (3 / 10)
    if closest_matches.isEmpty then
      Sum.inl (PyExn.httpExc 404 "No relevant information found in the knowledge base.")
    else
      Sum.inr ⟨"success", closest_matches, pyStrip model_answer⟩

/-- The whole `answer_query` endpoint, including its broad
`except Exception` handler (lines 388-390), which catches even the
endpoint's own `HTTPException(400)`/`HTTPException(404)` (FastAPI's
`HTTPException` is an `Exception` subclass) and re-raises
`HTTPException(500, "Internal Server Error")`. -/
def answer_query (dist : List ℚ → List ℚ → ℚ) (req : QueryRequest)
    (query_embedding : List ℚ) (knowledge_base : List (String × List Chunk))
    (model_answer : String) : HttpResult AnswerBody :=
  match answerInner dist req query_embedding knowledge_base model_answer with
  | Sum.inr body => HttpResult.ok body
  | Sum.inl _ => HttpResult.httpError 500 "Internal Server Error"

/-! ## Leaf-path semantics, dotted-key splitting, and `unflatten`

The repository has no unflatten function; spec §8 nevertheless asserts
that "flatten/unflatten round-trips preserve leaf values", so the
inverse direction is modelled from the spec (see `unflatten_json`). -/

/-- Split a character list at every dot: the inverse of the dotted-path
concatenation performed by `flatten_json`.  Always returns at least one
(possibly empty) component. -/
def splitDotsL : List Char → List (List Char)
  | [] => [[]]
  | c :: rest =>
      match splitDotsL rest with
      | [] => [[c]]
      | comp :: comps =>
          if c = '.' then [] :: comp :: comps else (c :: comp) :: comps

/-- Split a dotted key into its path components. -/
def splitDots (s : String) : List String :=
  (splitDotsL s.data).map (fun cs => ⟨cs⟩)

/-- Value of the leaf reached from a field list by following a path of
keys; `none` if the path leaves the record or ends at an object.
Lookup takes the first binding of a key, as `pyDictGet` does. -/
def leafAtFields : List (String × J) → List String → Option String
  | _, [] => none
  | [], _ :: _ => none
  | (k, v) :: restF, key :: restP =>
      if k = key then
        match v, restP with
        | J.str s, [] => some s
        | J.str _, _ :: _ => none
        | J.obj _, [] => none
        | J.obj sub, p :: ps => leafAtFields sub (p :: ps)
      else leafAtFields restF (key :: restP)

/-- Modelled from the spec: the repository contains no unflatten
function, so this is the inverse the spec's round-trip property (§8,
item 1) speaks of — insert one dotted-path leaf into a nested record,
creating intermediate objects along the path. -/
def insertPath : List (String × J) → List String → String → List (String × J)
  | fs, [], _ => fs
  | fs, [k], v => pyDictSet fs k (J.str v)
  | fs, k :: k2 :: restP, v =>
      match pyDictGet fs k with
      | some (J.obj sub) => pyDictSet fs k (J.obj (insertPath sub (k2 :: restP) v))
      | _ => pyDictSet fs k (J.obj (insertPath [] (k2 :: restP) v))

/-- Modelled from the spec: rebuild a nested record from a flat
dotted-path dict, splitting every key at its dots and inserting the
leaves in order. -/
def unflatten_json (flat : List (String × String)) : List (String × J) :=
  flat.foldl (fun acc kv => insertPath acc (splitDots kv.1) kv.2) []

/-- The leaves of a field list: every (path, value) pair, in field
order. -/
def leavesFields : List (String × J) → List (List String × String)
  | [] => []
  | (k, J.str s) :: rest => ([k], s) :: leavesFields rest
  | (k, J.obj sub) :: rest =>
      (leavesFields sub).map (fun ps => (k :: ps.1, ps.2)) ++ leavesFields rest

/-- The ideal (collision-free) flattening: leaves in scan order with
their dotted keys, without the dict-overwrite semantics.  Coincides
with `flatten_json` exactly when no generated keys collide. -/
def flatListFields : List (String × J) → String → List (String × String)
  | [], _ => []
  | (k, J.str s) :: rest, parent_key =>
      (joinKey parent_key k, s) :: flatListFields rest parent_key
  | (k, J.obj sub) :: rest, parent_key =>
      flatListFields sub (joinKey parent_key k) ++ flatListFields rest parent_key

/-- A key is unambiguous for dotted-path flattening when it is
non-empty and contains no dot. -/
def goodKey (k : String) : Bool :=
  k ≠ "" && !(k.data.contains '.')

/-- Well-formedness of a record for the round-trip property: at every
level, keys are unambiguous and pairwise distinct (the latter is the
Python dict invariant). -/
def wfFields : List (String × J) → Bool
  | [] => true
  | (k, v) :: rest =>
      goodKey k &&
      (match v with
       | J.str _ => true
       | J.obj sub => wfFields sub) &&
      !((rest.map Prod.fst).contains k) &&
      wfFields rest

/-- Fold of `joinKey` along a path: the dotted key a leaf at this path
receives under the given parent key. -/
def joinPath (parent_key : String) (path : List String) : String :=
  path.foldl joinKey parent_key

/-- Path `q` extends path `p` (i.e. `p` is an initial segment of `q`). -/
def pathExtends (p q : List String) : Prop :=
  ∃ r, q = p ++ r

/-- Two paths are incomparable: neither extends the other. -/
def pathIncomp (p q : List String) : Prop :=
  ¬pathExtends p q ∧ ¬pathExtends q p

/-! ## Props used by the endpoint theorems -/

/-- The request passes both session checks of `collect_user_info`: a
truthy `session_id` that the UUID parser accepts. -/
def sessionAccepted (uuidOk : String → Bool) (req : ConvRequest) : Prop :=
  req.session_id.getD "" ≠ "" ∧ uuidOk (req.session_id.getD "") = true

/-- The model reply is malformed in one of the two ways lines 189-207
of the route handle: not parseable as JSON, or missing one of the
required keys. -/
def gptMalformed (gpt : Option GptData) : Prop :=
  gpt = none ∨ ∃ g, gpt = some g ∧
    ¬(g.confirmation_status.isSome ∧ g.message_to_user.isSome
      ∧ g.transition_to_qa.isSome)

/-! ## Theorems -/

/-- C1: for every query embedding and knowledge base (and any distance
function, in particular cosine distance), `find_closest_match` returns a
list sorted in non-decreasing order of distance, and a match is returned
exactly when it is one of the scanned candidates and its distance is at
most the threshold; the result is a permutation of the threshold-filtered
candidate scan, so everything above the threshold is excluded. -/
theorem find_closest_match_spec (dist : List ℚ → List ℚ → ℚ)
    (query_embedding : List ℚ) (knowledge_base : List (String × List Chunk))
    (threshold : ℚ) :
    (find_closest_match dist query_embedding knowledge_base threshold).Pairwise
      (fun a b => a.distance ≤ b.distance) ∧
    List.Perm (find_closest_match dist query_embedding knowledge_base threshold)
      ((candidateMatches dist query_embedding knowledge_base).filter
        (fun m => m.distance ≤ threshold)) ∧
    ∀ m, m ∈ find_closest_match dist query_embedding knowledge_base threshold ↔
      (m ∈ candidateMatches dist query_embedding knowledge_base ∧
        m.distance ≤ threshold) := by
  refine ⟨?_, ?_, ?_⟩
  · exact List.sorted_insertionSort matchLe _
  · exact List.perm_insertionSort matchLe _
  · intro m
    unfold find_closest_match
    rw [List.mem_insertionSort, List.mem_filter]
    simp

/-- C3 (code bug): `validate_field` accepts the ten-character id value
consisting of nine digits followed by a newline, because the `$` anchor
of Python `re.match` also matches just before a trailing newline — even
though the value is not exactly nine digits and the code's own error
message demands exactly nine. -/
theorem validate_field_accepts_trailing_newline :
    validate_field "id_number" "123456789\n" = none ∧
    validate_field "hmo_card_number" "123456789\n" = none ∧
    ("123456789\n" : String).length = 10 := by
  refine ⟨by decide, by decide, by decide⟩

/-- C5 (code bug): when no chunk is within the threshold,
`answer_query` raises `HTTPException(404)` inside its own `try` block,
but the broad `except Exception` catches it (FastAPI `HTTPException`
subclasses `Exception`) and re-raises 500, so the endpoint answers
HTTP 500 "Internal Server Error" instead of the documented 404. -/
theorem answer_query_empty_matches_gives_500 :
    find_closest_match (fun _ _ => 0) [] ([] : List (String × List Chunk))
      (3 / 10) = [] ∧
    answer_query (fun _ _ => 0) ⟨some [("hmo_name", "maccabi")], some "q"⟩ []
      ([] : List (String × List Chunk)) "" =
      HttpResult.httpError 500 "Internal Server Error" := by
  refine ⟨by decide, by decide⟩

/-- C7 (code bug): a request without a `session_id` (and likewise one
whose `session_id` is not a valid UUID) does not produce the documented
HTTP 400: the `HTTPException(400)` is caught by the endpoint's broad
`except`, whose handler references the still-unassigned local
`collected_data`, so the request fails with HTTP 500.  Errors caught
after `collected_data` is assigned are returned as HTTP-200 bodies with
a generic message, not as HTTP error statuses. -/
theorem collect_user_info_session_errors_give_500 :
    collect_user_info (fun _ => true) ⟨none, "", "", [], false⟩ none =
      HttpResult.httpError 500 "Internal Server Error" ∧
    collect_user_info (fun _ => false) ⟨some "not-a-uuid", "", "", [], false⟩
      none = HttpResult.httpError 500 "Internal Server Error" := by
  refine ⟨by decide, by decide⟩

/-- C4, counterexample: with an empty `collected_data` (so seven of the
eight required fields stay missing after this turn), a model reply that
supplies one valid field value but claims `confirmation_status = true`
and `transition_to_qa = true` makes the endpoint return
`transition_to_qa = true` — the required-fields condition of the claim
fails while the transition is granted, because the route re-checks only
the confirmation flag, never the missing fields. -/
theorem collect_user_info_transition_with_missing_fields :
    collect_user_info (fun _ => true) ⟨some "s", "", "", [], false⟩
      (some ⟨some "age", some "30", some "m", some true, some true⟩) =
      HttpResult.ok ⟨"success",
        "Thank you for confirming! You can now ask questions.",
        [(some "age", "30")], none, some true⟩ ∧
    pyDictGet [((some "age" : Option String), "30")] (some "first_name") =
      none := by
  refine ⟨by decide, by decide⟩

/-- C6, counterexample: an unparseable model reply is answered with
status "error", not with the "pending" status the claim names (the
"pending" status is reserved for validation failures); the response is
nevertheless non-fatal (HTTP 200) and leaves the collected data
unchanged. -/
theorem collect_user_info_parse_failure_status_error :
    collect_user_info (fun _ => true) ⟨some "s", "hi", "", [(some "age", "30")], false⟩
      none =
      HttpResult.ok ⟨"error",
        "There was an issue processing your input. Please try again.",
        [(some "age", "30")], none, none⟩ ∧
    ("error" : String) ≠ "pending" := by
  refine ⟨by decide, by decide⟩

/-- C2, counterexample: on the empty record — which is equal to itself —
`validate_with_ground_truth` does not report 100%/100%: the ground truth
flattens to zero fields and the unguarded completeness division raises
`ZeroDivisionError`. -/
theorem validate_with_ground_truth_empty_raises :
    validate_with_ground_truth [] [] =
      Except.error "ZeroDivisionError: division by zero" := by
  simp [validate_with_ground_truth, flatten_json, flattenLoop, normFields,
    normFieldsLoop]

/-- C8, counterexample: a record whose key itself contains a dot is
flattened to the same dotted key as the nested record it imitates, so no
unflatten can restore its leaf: the leaf at path `["a.b"]` is lost by
the round trip (it reappears at path `["a", "b"]` instead). -/
theorem flatten_unflatten_drops_dotted_key :
    leafAtFields [("a.b", J.str "x")] ["a.b"] = some "x" ∧
    leafAtFields (unflatten_json (flatten_json [("a.b", J.str "x")] "")) ["a.b"] =
      none := by
  have hflat : flatten_json [("a.b", J.str "x")] "" = [("a.b", "x")] := by
    simp [flatten_json, flattenLoop, pyDictSet, pyDictGet, joinKey]
  have hsplit : splitDots "a.b" = ["a", "b"] := by decide
  have hunflat : unflatten_json [("a.b", "x")] = [("a", J.obj [("b", J.str "x")])] := by
    simp [unflatten_json, hsplit, insertPath, pyDictSet, pyDictGet]
  refine ⟨by simp [leafAtFields], ?_⟩
  rw [hflat, hunflat]
  simp [leafAtFields]

/-- Both branches of the final success return carry status "success". -/
theorem collectFinish_status (req : ConvRequest) (g : GptData)
    (c : List (Option String × String)) :
    (collectFinish req g c).status = "success" := by
  unfold collectFinish
  dsimp only
  split_ifs <;> rfl

/-- The final success return carries exactly the dict it was given. -/
theorem collectFinish_collected (req : ConvRequest) (g : GptData)
    (c : List (Option String × String)) :
    (collectFinish req g c).collected_data = c := by
  unfold collectFinish
  dsimp only
  split_ifs <;> rfl

/-- If the final return grants the transition, the reply claimed it and
the effective confirmation flag was true. -/
theorem collectFinish_transition (req : ConvRequest) (g : GptData)
    (c : List (Option String × String))
    (h : (collectFinish req g c).transition_to_qa = some true) :
    g.transition_to_qa.getD false = true ∧
    g.confirmation_status.getD req.confirmation_status = true := by
  unfold collectFinish at h
  dsimp only at h
  by_cases hA : g.transition_to_qa.getD false = true ∧
      ¬g.confirmation_status.getD req.confirmation_status = true
  · rw [if_pos hA] at h
    simp at h
  · rw [if_neg hA] at h
    by_cases hB : g.transition_to_qa.getD false = true
    · refine ⟨hB, ?_⟩
      by_contra hC
      exact hA ⟨hB, hC⟩
    · rw [if_neg hB] at h
      simp at h

/-- Every 200-body produced inside the `try` block either carries the
request's dict unchanged or has status "success". -/
theorem collectInner_ok_cases (uuidOk : String → Bool) (req : ConvRequest)
    (gpt : Option GptData) (b : ChatBody)
    (h : collectInner uuidOk req gpt = Sum.inr b) :
    b.collected_data = req.collected_data ∨ b.status = "success" := by
  unfold collectInner mkErrorBody mkPendingBody at h
  dsimp only at h
  repeat' split at h
  all_goals
    first
      | exact Sum.noConfusion h
      | (injection h with h
         subst h
         exact Or.inl rfl)
      | (injection h with h
         subst h
         exact Or.inr (collectFinish_status _ _ _))

/-- A `some` option whose default-read is `true` is `some true`. -/
theorem option_getD_true {o : Option Bool} {d : Bool} (hs : o.isSome = true)
    (hg : o.getD d = true) : o = some true := by
  cases o <;> simp_all

/-- If the `try` block returns a body granting the transition, the model
reply parsed, carried the three required keys, and set both
`confirmation_status` and `transition_to_qa` to true. -/
theorem collectInner_transition (uuidOk : String → Bool) (req : ConvRequest)
    (gpt : Option GptData) (b : ChatBody)
    (h : collectInner uuidOk req gpt = Sum.inr b)
    (htr : b.transition_to_qa = some true) :
    ∃ g, gpt = some g ∧ g.confirmation_status = some true ∧
      g.transition_to_qa = some true := by
  unfold collectInner mkErrorBody mkPendingBody at h
  dsimp only at h
  split at h
  · exact Sum.noConfusion h
  · split at h
    · exact Sum.noConfusion h
    · split at h
      · injection h with h
        subst h
        exact absurd htr (by simp)
      · next g =>
        split at h
        · injection h with h
          subst h
          exact absurd htr (by simp)
        · next hkeys =>
          have hks : g.confirmation_status.isSome = true ∧
              g.message_to_user.isSome = true ∧
              g.transition_to_qa.isSome = true := by
            simp only [Bool.not_eq_true', Bool.and_eq_true,
              Bool.not_eq_false] at hkeys
            tauto
          have hfin : ∀ c, b = collectFinish req g c →
              g.confirmation_status = some true ∧
              g.transition_to_qa = some true := by
            intro c hc
            obtain ⟨hval, hconf⟩ := collectFinish_transition req g c (hc ▸ htr)
            exact ⟨option_getD_true hks.1 hconf, option_getD_true hks.2.2 hval⟩
          repeat' split at h
          all_goals
            first
              | exact Sum.noConfusion h
              | (injection h with h
                 subst h
                 exact absurd htr (by simp))
              | (injection h with h
                 exact ⟨g, rfl, hfin _ h.symm⟩)

/-- C9: `collect_user_info` is atomic on failure — every response body
whose status is "pending" or "error" carries exactly the
`collected_data` of the request; no field was added, removed, or
changed on those paths (the single mutation happens only on the
success path, after all failure returns). -/
theorem collect_user_info_atomic_on_failure (uuidOk : String → Bool)
    (req : ConvRequest) (gpt : Option GptData) (body : ChatBody)
    (hok : collect_user_info uuidOk req gpt = HttpResult.ok body)
    (hst : body.status = "pending" ∨ body.status = "error") :
    body.collected_data = req.collected_data := by
  unfold collect_user_info at hok
  cases hInner : collectInner uuidOk req gpt with
  | inr b =>
      rw [hInner] at hok
      injection hok with hok
      subst hok
      rcases collectInner_ok_cases uuidOk req gpt b hInner with hcd | hsucc
      · exact hcd
      · rcases hst with h | h <;> rw [h] at hsucc <;>
          exact absurd hsucc (by decide)
  | inl e =>
      cases e with
      | httpExc code d =>
          rw [hInner] at hok
          exact HttpResult.noConfusion hok
      | attrError =>
          rw [hInner] at hok
          injection hok with hok
          subst hok
          rfl

/-- C9, witness: on a request carrying one collected field and an
unparseable model reply, the error body returns that dict unchanged. -/
theorem collect_user_info_atomic_on_failure_witness :
    (ChatBody.mk "error"
      "There was an issue processing your input. Please try again."
      [(some "age", "30")] none none).collected_data = [(some "age", "30")] :=
  collect_user_info_atomic_on_failure (fun _ => true)
    ⟨some "s", "hi", "", [(some "age", "30")], false⟩ none
    ⟨"error", "There was an issue processing your input. Please try again.",
      [(some "age", "30")], none, none⟩
    (by decide) (Or.inr rfl)

/-- C4, amended: the only gate on the transition is the model reply.
Whenever `collect_user_info` answers with `transition_to_qa = true`, the
reply parsed, carried the required keys, and set both
`confirmation_status = true` and `transition_to_qa = true`; the
checklist of required fields is not re-checked by the endpoint (the
counterexample shows a transition granted with seven fields missing). -/
theorem collect_user_info_transition_needs_confirmation
    (uuidOk : String → Bool) (req : ConvRequest) (gpt : Option GptData)
    (body : ChatBody)
    (hok : collect_user_info uuidOk req gpt = HttpResult.ok body)
    (htr : body.transition_to_qa = some true) :
    ∃ g, gpt = some g ∧ g.confirmation_status = some true ∧
      g.transition_to_qa = some true := by
  unfold collect_user_info at hok
  cases hInner : collectInner uuidOk req gpt with
  | inr b =>
      rw [hInner] at hok
      injection hok with hok
      subst hok
      exact collectInner_transition uuidOk req gpt b hInner htr
  | inl e =>
      cases e with
      | httpExc code d =>
          rw [hInner] at hok
          exact HttpResult.noConfusion hok
      | attrError =>
          rw [hInner] at hok
          injection hok with hok
          subst hok
          exact absurd htr (by simp [mkErrorBody])

/-- C4, witness: the transition granted in the counterexample scenario
indeed came from a reply with both flags set. -/
theorem collect_user_info_transition_needs_confirmation_witness :
    ∃ g, (some (GptData.mk (some "age") (some "30") (some "m") (some true)
        (some true))) = some g ∧
      g.confirmation_status = some true ∧ g.transition_to_qa = some true :=
  collect_user_info_transition_needs_confirmation (fun _ => true)
    ⟨some "s", "", "", [], false⟩
    (some ⟨some "age", some "30", some "m", some true, some true⟩)
    ⟨"success", "Thank you for confirming! You can now ask questions.",
      [(some "age", "30")], none, some true⟩
    (by decide) (by decide)

/-- C6, amended: when the session is accepted and the model reply is
malformed — unparseable JSON or missing required keys — the endpoint
answers HTTP 200 with a body of status "error" (not "pending", which is
reserved for validation failures) and the collected data unchanged, so
the turn can be retried; the malformation is not a fatal HTTP error. -/
theorem collect_user_info_malformed_retryable (uuidOk : String → Bool)
    (req : ConvRequest) (gpt : Option GptData)
    (hs : sessionAccepted uuidOk req) (hm : gptMalformed gpt) :
    ∃ msg, collect_user_info uuidOk req gpt =
      HttpResult.ok ⟨"error", msg, req.collected_data, none, none⟩ := by
  obtain ⟨hs1, hs2⟩ := hs
  unfold collect_user_info collectInner mkErrorBody
  dsimp only
  rw [if_neg hs1, if_neg (by simp [hs2])]
  rcases hm with rfl | ⟨g, rfl, hkeys⟩
  · exact ⟨_, rfl⟩
  · dsimp only
    rw [if_pos (show (!(g.confirmation_status.isSome && g.message_to_user.isSome
          && g.transition_to_qa.isSome)) = true by
      cases hA : g.confirmation_status.isSome <;>
        cases hB : g.message_to_user.isSome <;>
          cases hC : g.transition_to_qa.isSome <;> simp_all)]
    exact ⟨_, rfl⟩

/-- C6, witness: a concrete accepted session with an unparseable reply
produces the retryable error body with the dict unchanged. -/
theorem collect_user_info_malformed_retryable_witness :
    ∃ msg, collect_user_info (fun _ => true)
      ⟨some "s", "", "", [(some "age", "30")], false⟩ none =
      HttpResult.ok ⟨"error", msg, [(some "age", "30")], none, none⟩ :=
  collect_user_info_malformed_retryable (fun _ => true)
    ⟨some "s", "", "", [(some "age", "30")], false⟩ none
    ⟨by decide, rfl⟩ (Or.inl rfl)

/-! ### Association-list lemmas for the Python dict model -/

/-- A key is found exactly when it occurs among the keys. -/
theorem pyDictGet_isSome {κ α : Type} [DecidableEq κ] (d : List (κ × α)) (k : κ) :
    (pyDictGet d k).isSome = true ↔ k ∈ d.map Prod.fst := by
  induction d with
  | nil => simp [pyDictGet]
  | cons hd tl ih =>
      obtain ⟨k0, v0⟩ := hd
      by_cases h : k0 = k
      · subst h
        simp [pyDictGet]
      · simp only [pyDictGet, h, if_false, List.map_cons, List.mem_cons]
        rw [ih]
        constructor
        · exact Or.inr
        · rintro (rfl | hm)
          · exact absurd rfl h
          · exact hm

/-- Lookup in the in-place-overwrite image of a dict, at the written key. -/
theorem pyDictGet_overwrite_self {κ α : Type} [DecidableEq κ]
    (d : List (κ × α)) (k : κ) (v : α) :
    pyDictGet (d.map (fun kv => if kv.1 = k then (k, v) else kv)) k =
      if (pyDictGet d k).isSome then some v else none := by
  induction d with
  | nil => simp [pyDictGet]
  | cons hd tl ih =>
      obtain ⟨k0, v0⟩ := hd
      rw [List.map_cons]
      dsimp only
      by_cases h : k0 = k
      · subst h
        rw [if_pos rfl]
        simp [pyDictGet]
      · rw [if_neg h]
        simp only [pyDictGet, if_neg h]
        exact ih

/-- Lookup in the in-place-overwrite image of a dict, at another key. -/
theorem pyDictGet_overwrite_ne {κ α : Type} [DecidableEq κ]
    (d : List (κ × α)) {k k' : κ} (v : α) (hne : k' ≠ k) :
    pyDictGet (d.map (fun kv => if kv.1 = k then (k, v) else kv)) k' =
      pyDictGet d k' := by
  induction d with
  | nil => simp [pyDictGet]
  | cons hd tl ih =>
      obtain ⟨k0, v0⟩ := hd
      rw [List.map_cons]
      dsimp only
      by_cases h : k0 = k
      · subst h
        rw [if_pos rfl]
        simp only [pyDictGet, if_neg (Ne.symm hne)]
        exact ih
      · rw [if_neg h]
        simp only [pyDictGet]
        by_cases h' : k0 = k'
        · rw [if_pos h', if_pos h']
        · rw [if_neg h', if_neg h']
          exact ih

/-- Lookup skips a block without the key. -/
theorem pyDictGet_append_of_not_mem {κ α : Type} [DecidableEq κ]
    {d : List (κ × α)} (l : List (κ × α)) {k : κ} (h : k ∉ d.map Prod.fst) :
    pyDictGet (d ++ l) k = pyDictGet l k := by
  induction d with
  | nil => rfl
  | cons hd tl ih =>
      obtain ⟨k0, v0⟩ := hd
      simp only [List.map_cons, List.mem_cons, not_or] at h
      rw [List.cons_append]
      simp only [pyDictGet]
      rw [if_neg (fun hh => h.1 hh.symm)]
      exact ih h.2

/-- Reading back the key just set. -/
theorem pyDictGet_pyDictSet_self {κ α : Type} [DecidableEq κ]
    (d : List (κ × α)) (k : κ) (v : α) :
    pyDictGet (pyDictSet d k v) k = some v := by
  unfold pyDictSet
  split_ifs with h
  · rw [pyDictGet_overwrite_self, if_pos h]
  · rw [pyDictGet_append_of_not_mem]
    · simp [pyDictGet]
    · intro hm
      exact h ((pyDictGet_isSome d k).mpr hm)

/-- Appending a single foreign binding does not change other lookups. -/
theorem pyDictGet_append_of_lookup_ne {κ α : Type} [DecidableEq κ]
    (d : List (κ × α)) {k k' : κ} {v : α} (hne : k' ≠ k) :
    pyDictGet (d ++ [(k, v)]) k' = pyDictGet d k' := by
  induction d with
  | nil =>
      simp only [List.nil_append, pyDictGet]
      rw [if_neg (fun hh => hne hh.symm)]
  | cons hd tl ih =>
      obtain ⟨k0, v0⟩ := hd
      rw [List.cons_append]
      simp only [pyDictGet]
      by_cases h' : k0 = k'
      · rw [if_pos h', if_pos h']
      · rw [if_neg h', if_neg h']
        exact ih

/-- Reading another key after a set. -/
theorem pyDictGet_pyDictSet_ne {κ α : Type} [DecidableEq κ]
    (d : List (κ × α)) {k k' : κ} (v : α) (hne : k' ≠ k) :
    pyDictGet (pyDictSet d k v) k' = pyDictGet d k' := by
  unfold pyDictSet
  split_ifs with h
  · exact pyDictGet_overwrite_ne d v hne
  · rw [pyDictGet_append_of_lookup_ne d hne]

/-- Setting a key leaves the key list unchanged if present, else appends. -/
theorem keys_pyDictSet {κ α : Type} [DecidableEq κ] (d : List (κ × α)) (k : κ)
    (v : α) :
    (pyDictSet d k v).map Prod.fst =
      if (pyDictGet d k).isSome then d.map Prod.fst
      else d.map Prod.fst ++ [k] := by
  unfold pyDictSet
  split_ifs with h
  · rw [List.map_map]
    apply List.map_congr_left
    intro kv _
    by_cases hk : kv.1 = k
    · simp [Function.comp, hk]
    · simp [Function.comp, hk]
  · simp

/-- Key uniqueness is preserved by a single dict assignment. -/
theorem nodupKeys_pyDictSet {κ α : Type} [DecidableEq κ] {d : List (κ × α)}
    (k : κ) (v : α) (hnd : (d.map Prod.fst).Nodup) :
    ((pyDictSet d k v).map Prod.fst).Nodup := by
  rw [keys_pyDictSet]
  split_ifs with h
  · exact hnd
  · have hk : k ∉ d.map Prod.fst := by
      intro hmem
      exact h ((pyDictGet_isSome d k).mpr hmem)
    simp [List.nodup_append, hnd, hk]

/-- Key uniqueness is preserved by `dict.update`. -/
theorem nodupKeys_pyDictSetMany {κ α : Type} [DecidableEq κ]
    (items : List (κ × α)) :
    ∀ d : List (κ × α), (d.map Prod.fst).Nodup →
      ((pyDictSetMany d items).map Prod.fst).Nodup := by
  induction items with
  | nil => intro d hd; exact hd
  | cons hd tl ih =>
      intro d hnd
      exact ih _ (nodupKeys_pyDictSet hd.1 hd.2 hnd)

/-- With unique keys, lookup of a present binding returns its value. -/
theorem pyDictGet_of_mem {κ α : Type} [DecidableEq κ] {d : List (κ × α)}
    {k : κ} {v : α} (hnd : (d.map Prod.fst).Nodup) (hm : (k, v) ∈ d) :
    pyDictGet d k = some v := by
  induction d with
  | nil => cases hm
  | cons hd tl ih =>
      obtain ⟨k0, v0⟩ := hd
      rw [List.map_cons, List.nodup_cons] at hnd
      rcases List.mem_cons.mp hm with heq | hmem
      · rw [Prod.mk.injEq] at heq
        obtain ⟨rfl, rfl⟩ := heq
        simp [pyDictGet]
      · have hne : k0 ≠ k := by
          rintro rfl
          exact hnd.1 (List.mem_map.mpr ⟨(k0, v), hmem, rfl⟩)
        simp [pyDictGet, hne, ih hnd.2 hmem]

/-- Setting an absent key appends the binding. -/
theorem pyDictSet_not_mem {κ α : Type} [DecidableEq κ] {d : List (κ × α)}
    {k : κ} (v : α) (h : k ∉ d.map Prod.fst) :
    pyDictSet d k v = d ++ [(k, v)] := by
  unfold pyDictSet
  rw [if_neg]
  intro hs
  exact h ((pyDictGet_isSome d k).mp hs)

/-- Updating with fresh, duplicate-free bindings is concatenation. -/
theorem pyDictSetMany_fresh {κ α : Type} [DecidableEq κ]
    (items : List (κ × α)) :
    ∀ d : List (κ × α), (items.map Prod.fst).Nodup →
      (∀ k ∈ items.map Prod.fst, k ∉ d.map Prod.fst) →
      pyDictSetMany d items = d ++ items := by
  induction items with
  | nil => intro d _ _; simp [pyDictSetMany]
  | cons hd tl ih =>
      intro d hnd hdisj
      obtain ⟨k, v⟩ := hd
      rw [List.map_cons, List.nodup_cons] at hnd
      have hstep : pyDictSet d k v = d ++ [(k, v)] :=
        pyDictSet_not_mem v (hdisj k (by simp))
      have hchain : pyDictSetMany d ((k, v) :: tl) =
          pyDictSetMany (d ++ [(k, v)]) tl := by
        simp [pyDictSetMany, hstep]
      rw [hchain, ih _ hnd.2]
      · simp
      · intro k' hk'
        simp only [List.map_append, List.mem_append, List.map_cons,
          List.map_nil, List.mem_singleton]
        rintro (hin | hsing)
        · exact hdisj k' (by simp [hk']) hin
        · subst hsing
          exact hnd.1 hk'

/-- `flatten_json` always yields a dict with unique keys (the Python
dict invariant), whatever the record. -/
theorem flattenLoop_keys_nodup (fs : List (String × J)) (parent_key : String)
    (acc : List (String × String)) :
    (acc.map Prod.fst).Nodup →
      ((flattenLoop fs parent_key acc).map Prod.fst).Nodup := by
  induction fs, parent_key, acc using flattenLoop.induct with
  | case1 par items =>
      intro hacc
      rw [flattenLoop]
      exact hacc
  | case2 key v rest par items ih =>
      intro hacc
      rw [flattenLoop]
      exact ih (nodupKeys_pyDictSet _ _ hacc)
  | case3 key sub rest par items ih1 ih2 =>
      intro hacc
      rw [flattenLoop]
      exact ih2 (nodupKeys_pyDictSetMany _ _ hacc)

/-- C10: `validate_with_ground_truth` returns normally exactly when the
ground truth flattens to at least one leaf; an empty flattened ground
truth reaches the unguarded completeness division and raises
`ZeroDivisionError` (the accuracy division is guarded by the
`total_fields > 0` check, so the exception comes from completeness). -/
theorem validate_with_ground_truth_total_iff
    (json_data ground_truth : List (String × J)) :
    (∃ e, validate_with_ground_truth json_data ground_truth = Except.error e) ↔
      flatten_json (normFields ground_truth) "" = [] := by
  unfold validate_with_ground_truth
  dsimp only
  split_ifs with h
  · constructor
    · intro _
      exact List.length_eq_zero.mp h
    · intro _
      exact ⟨_, rfl⟩
  · constructor
    · rintro ⟨e, he⟩
      exact he.elim
    · intro hnil
      exfalso
      apply h
      rw [hnil]
      rfl

/-- C2, amended: whenever the record flattens to at least one leaf,
validating a record against itself reports 100% accuracy, 100%
completeness, no missing fields and no mismatched fields (for the empty
record the function instead raises `ZeroDivisionError`, see the
counterexample). -/
theorem validate_with_ground_truth_self (gt : List (String × J))
    (h : flatten_json (normFields gt) "" ≠ []) :
    validate_with_ground_truth gt gt = Except.ok ⟨100, 100, [], []⟩ := by
  have hnd : ((flatten_json (normFields gt) "").map Prod.fst).Nodup :=
    flattenLoop_keys_nodup _ _ _ (by simp)
  unfold validate_with_ground_truth
  dsimp only
  set F := flatten_json (normFields gt) "" with hF
  have hlen : F.length ≠ 0 := fun h0 => h (List.length_eq_zero.mp h0)
  have hQ : (F.length : ℚ) ≠ 0 := Nat.cast_ne_zero.mpr hlen
  have hget : ∀ kv ∈ F, pyDictGet F kv.1 = some kv.2 := by
    intro kv hm
    exact pyDictGet_of_mem hnd hm
  have hcount : F.countP (fun kv => ((pyDictGet F kv.1).getD "" == kv.2)) =
      F.length := by
    apply List.countP_eq_length.mpr
    intro kv hm
    rw [hget kv hm]
    simp
  have hmissing : (F.map Prod.fst).filter
      (fun k => !((F.map Prod.fst).contains k)) = [] := by
    apply List.filter_eq_nil_iff.mpr
    intro k hk
    simp [hk]
  have hmis : F.filter (fun kv => !((pyDictGet F kv.1).getD "" == kv.2)) = [] := by
    apply List.filter_eq_nil_iff.mpr
    intro kv hm
    rw [hget kv hm]
    simp
  rw [if_neg hlen, hcount, hmissing, hmis]
  rw [if_pos (Nat.pos_of_ne_zero hlen)]
  rw [div_self hQ]
  norm_num [div_self hQ]

/-- C2, witness: a one-field record validated against itself yields the
perfect report. -/
theorem validate_with_ground_truth_self_witness :
    validate_with_ground_truth [("a", J.str "1")] [("a", J.str "1")] =
      Except.ok ⟨100, 100, [], []⟩ :=
  validate_with_ground_truth_self [("a", J.str "1")]
    (by simp [flatten_json, flattenLoop, normFields, normFieldsLoop,
      pyDictSet, pyDictGet])

/-! ### Dotted-path splitting lemmas -/

/-- Splitting always produces at least one component. -/
theorem splitDotsL_ne_nil (cs : List Char) : splitDotsL cs ≠ [] := by
  cases cs with
  | nil => simp [splitDotsL]
  | cons c rest =>
      unfold splitDotsL
      cases h : splitDotsL rest with
      | nil => simp
      | cons comp comps => split_ifs <;> simp

/-- Splitting distributes over a dot in the middle. -/
theorem splitDotsL_append_dot (A B : List Char) :
    splitDotsL (A ++ '.' :: B) = splitDotsL A ++ splitDotsL B := by
  induction A with
  | nil =>
      rw [List.nil_append]
      cases h : splitDotsL B with
      | nil => exact absurd h (splitDotsL_ne_nil B)
      | cons comp comps =>
          simp only [splitDotsL, h]
          simp
  | cons c A' ih =>
      rw [List.cons_append]
      simp only [splitDotsL]
      rw [ih]
      cases hA : splitDotsL A' with
      | nil => exact absurd hA (splitDotsL_ne_nil A')
      | cons comp comps =>
          rw [List.cons_append]
          dsimp only
          by_cases hc : c = '.'
          · rw [if_pos hc, if_pos hc]
            rfl
          · rw [if_neg hc, if_neg hc]
            rfl

/-- A dot-free chunk is a single component. -/
theorem splitDotsL_dotFree (A : List Char) (h : ¬A.contains '.') :
    splitDotsL A = [A] := by
  induction A with
  | nil => rfl
  | cons c A' ih =>
      simp only [List.contains_cons, Bool.or_eq_true, beq_iff_eq, not_or] at h
      simp only [splitDotsL]
      rw [ih h.2]
      dsimp only
      rw [if_neg (fun hc => h.1 hc.symm)]

/-- Splitting a good (non-empty, dot-free) key gives the key itself. -/
theorem splitDots_goodKey {k : String} (h : goodKey k = true) :
    splitDots k = [k] := by
  unfold goodKey at h
  rw [Bool.and_eq_true] at h
  unfold splitDots
  rw [splitDotsL_dotFree k.data (by simpa using h.2)]
  rfl

/-- Appending strings concatenates their character lists. -/
theorem string_data_append (a b : String) : (a ++ b).data = a.data ++ b.data :=
  rfl

/-- A key joined under a non-empty parent splits into both parts. -/
theorem splitDots_joinKey {parent_key : String} (k : String)
    (h : parent_key ≠ "") :
    splitDots (joinKey parent_key k) = splitDots parent_key ++ splitDots k := by
  unfold joinKey
  rw [if_neg h]
  unfold splitDots
  have hdata : (parent_key ++ "." ++ k).data =
      parent_key.data ++ '.' :: k.data := by
    rw [string_data_append, string_data_append]
    simp
  rw [hdata, splitDotsL_append_dot, List.map_append]

/-- A key joined under a non-empty parent is itself non-empty. -/
theorem joinKey_ne_empty {parent_key : String} (k : String)
    (h : parent_key ≠ "") : joinKey parent_key k ≠ "" := by
  unfold joinKey
  rw [if_neg h]
  intro hcontra
  have hdd := congrArg String.data hcontra
  rw [string_data_append, string_data_append] at hdd
  have hdot : String.data "." = ['.'] := rfl
  have hemp : String.data "" = [] := rfl
  rw [hdot, hemp] at hdd
  simp at hdd

/-- Splitting a dotted path joined under a non-empty parent. -/
theorem splitDots_joinPath (path : List String) :
    ∀ parent_key : String, parent_key ≠ "" →
      (∀ c ∈ path, goodKey c = true) →
      splitDots (joinPath parent_key path) = splitDots parent_key ++ path := by
  induction path with
  | nil =>
      intro par hpar _
      simp [joinPath]
  | cons c cs ih =>
      intro par hpar hgood
      have hc : goodKey c = true := hgood c (by simp)
      have hcs : ∀ x ∈ cs, goodKey x = true := fun x hx => hgood x (by simp [hx])
      show splitDots (joinPath (joinKey par c) cs) = splitDots par ++ c :: cs
      rw [ih (joinKey par c) (joinKey_ne_empty c hpar) hcs]
      rw [splitDots_joinKey c hpar, splitDots_goodKey hc]
      simp

/-- Splitting a dotted path joined at top level (empty parent). -/
theorem splitDots_joinPath_top (path : List String) (hne : path ≠ [])
    (hgood : ∀ c ∈ path, goodKey c = true) :
    splitDots (joinPath "" path) = path := by
  cases path with
  | nil => exact absurd rfl hne
  | cons k rest =>
      have hk : goodKey k = true := hgood k (by simp)
      have hkne : k ≠ "" := by
        unfold goodKey at hk
        rw [Bool.and_eq_true] at hk
        simpa using hk.1
      have hrest : ∀ x ∈ rest, goodKey x = true :=
        fun x hx => hgood x (by simp [hx])
      show splitDots (joinPath (joinKey "" k) rest) = k :: rest
      have hjoin : joinKey "" k = k := by simp [joinKey]
      rw [hjoin, splitDots_joinPath rest k hkne hrest, splitDots_goodKey hk]
      rfl

/-- A split is never empty. -/
theorem splitDots_ne_nil (s : String) : splitDots s ≠ [] := by
  unfold splitDots
  intro h
  exact splitDotsL_ne_nil s.data (List.map_eq_nil_iff.mp h)

/-! ### Leaf/path lemmas about records -/

/-- Looking up a non-empty path scans the field list like `pyDictGet`. -/
theorem leafAtFields_lookup (fs : List (String × J)) (k : String)
    (rest : List String) :
    leafAtFields fs (k :: rest) =
      match pyDictGet fs k with
      | none => none
      | some (J.str s) => if rest = [] then some s else none
      | some (J.obj sub) => leafAtFields sub rest := by
  induction fs with
  | nil => simp [leafAtFields, pyDictGet]
  | cons hd tl ih =>
      obtain ⟨k0, v0⟩ := hd
      rw [leafAtFields.eq_def]
      dsimp only
      simp only [pyDictGet]
      by_cases h : k0 = k
      · rw [if_pos h, if_pos h]
        cases v0 with
        | str s => cases rest <;> simp
        | obj sub => cases rest with
          | nil => simp [leafAtFields]
          | cons p ps => simp
      · rw [if_neg h, if_neg h]
        exact ih

/-- The empty record has no leaves. -/
theorem leafAtFields_nil (q : List String) :
    leafAtFields ([] : List (String × J)) q = none := by
  cases q <;> simp [leafAtFields]

/-- Every leaf path starts with one of the record's keys. -/
theorem leaves_head_mem (fs : List (String × J)) :
    ∀ p v, (p, v) ∈ leavesFields fs →
      ∃ k rest, p = k :: rest ∧ k ∈ fs.map Prod.fst := by
  induction fs using leavesFields.induct with
  | case1 =>
      intro p v h
      simp [leavesFields] at h
  | case2 k s rest ih =>
      intro p v h
      simp only [leavesFields] at h
      rcases List.mem_cons.mp h with heq | hm
      · rw [Prod.mk.injEq] at heq
        exact ⟨k, [], heq.1, by simp⟩
      · obtain ⟨k', r', hp, hk'⟩ := ih p v hm
        exact ⟨k', r', hp, by simp [hk']⟩
  | case3 k sub rest ih1 ih2 =>
      intro p v h
      simp only [leavesFields] at h
      rcases List.mem_append.mp h with hm | hm
      · obtain ⟨⟨p0, v0⟩, hmem, heq⟩ := List.mem_map.mp hm
        rw [Prod.mk.injEq] at heq
        exact ⟨k, p0, heq.1.symm ▸ rfl, by simp⟩
      · obtain ⟨k', r', hp, hk'⟩ := ih2 p v hm
        exact ⟨k', r', hp, by simp [hk']⟩

/-- Every component of every leaf path of a well-formed record is a
good key. -/
theorem leaves_good (fs : List (String × J)) :
    wfFields fs = true → ∀ p v, (p, v) ∈ leavesFields fs →
      ∀ c ∈ p, goodKey c = true := by
  induction fs using leavesFields.induct with
  | case1 =>
      intro _ p v h
      simp [leavesFields] at h
  | case2 k s rest ih =>
      intro hwf p v h c hc
      rw [wfFields] at hwf
      simp only [Bool.and_eq_true] at hwf
      simp only [leavesFields] at h
      rcases List.mem_cons.mp h with heq | hm
      · rw [Prod.mk.injEq] at heq
        rw [heq.1] at hc
        simp only [List.mem_singleton] at hc
        subst hc
        exact hwf.1.1.1
      · exact ih hwf.2 p v hm c hc
  | case3 k sub rest ih1 ih2 =>
      intro hwf p v h c hc
      rw [wfFields] at hwf
      simp only [Bool.and_eq_true] at hwf
      simp only [leavesFields] at h
      rcases List.mem_append.mp h with hm | hm
      · obtain ⟨⟨p0, v0⟩, hmem, heq⟩ := List.mem_map.mp hm
        rw [Prod.mk.injEq] at heq
        rw [← heq.1] at hc
        rcases List.mem_cons.mp hc with rfl | hc'
        · exact hwf.1.1.1
        · exact ih1 hwf.1.1.2 p0 v0 hmem c hc'
      · exact ih2 hwf.2 p v hm c hc

/-! ### Path comparability lemmas -/

/-- Cons preserves and reflects path extension. -/
theorem pathExtends_cons_iff (k k' : String) (p q : List String) :
    pathExtends (k :: p) (k' :: q) ↔ k = k' ∧ pathExtends p q := by
  unfold pathExtends
  constructor
  · rintro ⟨r, hr⟩
    rw [List.cons_append] at hr
    injection hr with h1 h2
    exact ⟨h1.symm, r, h2⟩
  · rintro ⟨rfl, r, hr⟩
    exact ⟨r, by rw [List.cons_append, hr]⟩

/-- Incomparability is symmetric. -/
theorem pathIncomp_symm {p q : List String} (h : pathIncomp p q) :
    pathIncomp q p :=
  ⟨h.2, h.1⟩

/-- Incomparable paths are distinct. -/
theorem pathIncomp_ne {p q : List String} (h : pathIncomp p q) : p ≠ q := by
  rintro rfl
  exact h.1 ⟨[], by simp⟩

/-- Cons preserves incomparability. -/
theorem pathIncomp_cons {p q : List String} (k : String)
    (h : pathIncomp p q) : pathIncomp (k :: p) (k :: q) := by
  constructor
  · intro hx
    exact h.1 ((pathExtends_cons_iff k k p q).mp hx).2
  · intro hx
    exact h.2 ((pathExtends_cons_iff k k q p).mp hx).2

/-- Paths with different heads are incomparable. -/
theorem pathIncomp_of_head_ne {k k' : String} (p q : List String)
    (h : k ≠ k') : pathIncomp (k :: p) (k' :: q) := by
  constructor
  · intro hx
    exact h ((pathExtends_cons_iff k k' p q).mp hx).1
  · intro hx
    exact h (((pathExtends_cons_iff k' k q p).mp hx).1).symm

/-- In a well-formed record, a leaf value sits at a path exactly when
the leaves list records it there. -/
theorem leafAt_iff_leaves (fs : List (String × J)) :
    wfFields fs = true → ∀ p v,
      (leafAtFields fs p = some v ↔ (p, v) ∈ leavesFields fs) := by
  induction fs using leavesFields.induct with
  | case1 =>
      intro _ p v
      rw [leafAtFields_nil]
      simp [leavesFields]
  | case2 k s rest ih =>
      intro hwf p v
      rw [wfFields] at hwf
      simp only [Bool.and_eq_true] at hwf
      have hnotin : ¬((rest.map Prod.fst).contains k = true) := by
        simpa using hwf.1.2
      cases p with
      | nil =>
          rw [leafAtFields.eq_1]
          simp only [leavesFields]
          constructor
          · intro h
            exact Option.noConfusion h
          · intro h
            rcases List.mem_cons.mp h with heq | hm
            · exact absurd (congrArg Prod.fst heq) (by simp)
            · obtain ⟨k', r', hp, _⟩ := leaves_head_mem rest _ _ hm
              exact List.noConfusion hp
      | cons key restP =>
          rw [leafAtFields_lookup]
          simp only [leavesFields]
          by_cases hk : k = key
          · subst hk
            have hget : pyDictGet ((k, J.str s) :: rest) k = some (J.str s) := by
              simp [pyDictGet]
            rw [hget]
            dsimp only
            constructor
            · intro h
              by_cases hr : restP = []
              · subst hr
                rw [if_pos rfl] at h
                injection h with h
                exact List.mem_cons.mpr (Or.inl (by rw [h]))
              · rw [if_neg hr] at h
                exact Option.noConfusion h
            · intro h
              rcases List.mem_cons.mp h with heq | hm
              · rw [Prod.mk.injEq] at heq
                obtain ⟨hp, hv⟩ := heq
                injection hp with hp1 hp2
                subst hp2 hv
                simp
              · exfalso
                obtain ⟨k', r', hp, hk'⟩ := leaves_head_mem rest _ _ hm
                injection hp with hp1 hp2
                subst hp1
                exact hnotin (by simpa using hk')
          · have hget : pyDictGet ((k, J.str s) :: rest) key =
                pyDictGet rest key := by
              simp [pyDictGet, hk]
            rw [hget, ← leafAtFields_lookup]
            rw [ih hwf.2 (key :: restP) v]
            constructor
            · intro h
              exact List.mem_cons.mpr (Or.inr h)
            · intro h
              rcases List.mem_cons.mp h with heq | hm
              · rw [Prod.mk.injEq] at heq
                obtain ⟨hp, _⟩ := heq
                injection hp with hp1 _
                first
                  | exact absurd hp1 hk
                  | exact absurd hp1 (fun hh => hk hh.symm)
              · exact hm
  | case3 k sub rest ih1 ih2 =>
      intro hwf p v
      rw [wfFields] at hwf
      simp only [Bool.and_eq_true] at hwf
      have hnotin : ¬((rest.map Prod.fst).contains k = true) := by
        simpa using hwf.1.2
      cases p with
      | nil =>
          rw [leafAtFields.eq_1]
          simp only [leavesFields]
          constructor
          · intro h
            exact Option.noConfusion h
          · intro h
            rcases List.mem_append.mp h with hm | hm
            · obtain ⟨⟨p0, v0⟩, _, heq⟩ := List.mem_map.mp hm
              rw [Prod.mk.injEq] at heq
              exact List.noConfusion heq.1
            · obtain ⟨k', r', hp, _⟩ := leaves_head_mem rest _ _ hm
              exact List.noConfusion hp
      | cons key restP =>
          rw [leafAtFields_lookup]
          simp only [leavesFields]
          by_cases hk : k = key
          · subst hk
            have hget : pyDictGet ((k, J.obj sub) :: rest) k =
                some (J.obj sub) := by
              simp [pyDictGet]
            rw [hget]
            dsimp only
            rw [ih1 hwf.1.1.2 restP v]
            constructor
            · intro h
              exact List.mem_append.mpr (Or.inl
                (List.mem_map.mpr ⟨(restP, v), h, rfl⟩))
            · intro h
              rcases List.mem_append.mp h with hm | hm
              · obtain ⟨⟨p0, v0⟩, hmem, heq⟩ := List.mem_map.mp hm
                rw [Prod.mk.injEq] at heq
                obtain ⟨hp, hv⟩ := heq
                injection hp with _ hp2
                subst hp2 hv
                exact hmem
              · exfalso
                obtain ⟨k', r', hp, hk'⟩ := leaves_head_mem rest _ _ hm
                injection hp with hp1 hp2
                subst hp1
                exact hnotin (by simpa using hk')
          · have hget : pyDictGet ((k, J.obj sub) :: rest) key =
                pyDictGet rest key := by
              simp [pyDictGet, hk]
            rw [hget, ← leafAtFields_lookup]
            rw [ih2 hwf.2 (key :: restP) v]
            constructor
            · intro h
              exact List.mem_append.mpr (Or.inr h)
            · intro h
              rcases List.mem_append.mp h with hm | hm
              · obtain ⟨⟨p0, v0⟩, _, heq⟩ := List.mem_map.mp hm
                rw [Prod.mk.injEq] at heq
                obtain ⟨hp, _⟩ := heq
                injection hp with hp1 _
                first
                  | exact absurd hp1 hk
                  | exact absurd hp1 (fun hh => hk hh.symm)
              · exact hm

/-- The leaf paths of a well-formed record are pairwise incomparable. -/
theorem leaves_incomp (fs : List (String × J)) :
    wfFields fs = true →
      ((leavesFields fs).map Prod.fst).Pairwise pathIncomp := by
  induction fs using leavesFields.induct with
  | case1 =>
      intro _
      simp [leavesFields]
  | case2 k s rest ih =>
      intro hwf
      rw [wfFields] at hwf
      simp only [Bool.and_eq_true] at hwf
      have hnotin : ¬((rest.map Prod.fst).contains k = true) := by
        simpa using hwf.1.2
      simp only [leavesFields, List.map_cons]
      refine List.Pairwise.cons ?_ (ih hwf.2)
      intro q hq
      obtain ⟨⟨p0, v0⟩, hmem, heq⟩ := List.mem_map.mp hq
      obtain ⟨k', r', hp, hk'⟩ := leaves_head_mem rest _ _ hmem
      have hq' : p0 = q := heq
      subst hq'
      rw [hp]
      apply pathIncomp_of_head_ne
      rintro rfl
      exact hnotin (by simpa using hk')
  | case3 k sub rest ih1 ih2 =>
      intro hwf
      rw [wfFields] at hwf
      simp only [Bool.and_eq_true] at hwf
      have hnotin : ¬((rest.map Prod.fst).contains k = true) := by
        simpa using hwf.1.2
      simp only [leavesFields, List.map_append]
      rw [List.pairwise_append]
      refine ⟨?_, ih2 hwf.2, ?_⟩
      · rw [List.map_map, List.pairwise_map]
        have hsub := ih1 hwf.1.1.2
        rw [List.pairwise_map] at hsub
        refine hsub.imp ?_
        intro a b hab
        exact pathIncomp_cons k hab
      · intro a ha b hb
        rw [List.map_map] at ha
        obtain ⟨⟨p0, v0⟩, hmem0, heq0⟩ := List.mem_map.mp ha
        obtain ⟨⟨p1, v1⟩, hmem1, heq1⟩ := List.mem_map.mp hb
        obtain ⟨k', r', hp, hk'⟩ := leaves_head_mem rest _ _ hmem1
        have ha' : k :: p0 = a := heq0
        have hb' : p1 = b := heq1
        subst ha' hb'
        rw [hp]
        apply pathIncomp_of_head_ne
        rintro rfl
        exact hnotin (by simpa using hk')

/-! ### The flattening equals the dotted leaves list -/

/-- The collision-free flattening lists exactly the leaves, keyed by
their dotted paths. -/
theorem flatList_eq_leaves (fs : List (String × J)) (parent_key : String) :
    flatListFields fs parent_key =
      (leavesFields fs).map
        (fun pv => (joinPath parent_key pv.1, pv.2)) := by
  induction fs, parent_key using flatListFields.induct with
  | case1 par =>
      simp [flatListFields, leavesFields]
  | case2 k s rest par ih =>
      rw [flatListFields]
      simp only [leavesFields, List.map_cons]
      rw [ih]
      rfl
  | case3 k sub rest par ih1 ih2 =>
      rw [flatListFields]
      simp only [leavesFields, List.map_append, List.map_map]
      rw [ih1, ih2]
      congr 1

/-- In a well-formed record the flattened keys are pairwise distinct,
under every parent key. -/
theorem flatList_keys_nodup (fs : List (String × J)) (hwf : wfFields fs = true)
    (parent_key : String) :
    ((flatListFields fs parent_key).map Prod.fst).Nodup := by
  rw [flatList_eq_leaves fs parent_key, List.map_map]
  have hinc := leaves_incomp fs hwf
  rw [List.pairwise_map] at hinc
  have hgood := leaves_good fs hwf
  have hjoin_inj : ∀ pv ∈ leavesFields fs, ∀ qv ∈ leavesFields fs,
      pathIncomp pv.1 qv.1 →
      joinPath parent_key pv.1 ≠ joinPath parent_key qv.1 := by
    intro pv hpv qv hqv hpq heq
    have hgp : ∀ c ∈ pv.1, goodKey c = true :=
      fun c hc => hgood pv.1 pv.2 hpv c hc
    have hgq : ∀ c ∈ qv.1, goodKey c = true :=
      fun c hc => hgood qv.1 qv.2 hqv c hc
    have hpne : pv.1 ≠ [] := by
      obtain ⟨k', r', hp, _⟩ := leaves_head_mem fs pv.1 pv.2 hpv
      rw [hp]
      simp
    have hqne : qv.1 ≠ [] := by
      obtain ⟨k', r', hp, _⟩ := leaves_head_mem fs qv.1 qv.2 hqv
      rw [hp]
      simp
    have heqsplit := congrArg splitDots heq
    by_cases hpar : parent_key = ""
    · subst hpar
      rw [splitDots_joinPath_top pv.1 hpne hgp,
        splitDots_joinPath_top qv.1 hqne hgq] at heqsplit
      exact pathIncomp_ne hpq heqsplit
    · rw [splitDots_joinPath pv.1 parent_key hpar hgp,
        splitDots_joinPath qv.1 parent_key hpar hgq] at heqsplit
      exact pathIncomp_ne hpq (List.append_cancel_left heqsplit)
  have hpw : ((leavesFields fs).map
      (fun pv => joinPath parent_key pv.1)).Pairwise (· ≠ ·) := by
    rw [List.pairwise_map]
    refine hinc.imp_of_mem ?_
    intro a b ha hb hab
    exact hjoin_inj a ha b hb hab
  exact hpw

/-- With globally fresh, duplicate-free keys the dict-building loop of
`flatten_json` is plain concatenation of the leaves list. -/
theorem flattenLoop_eq_append (fs : List (String × J)) (parent_key : String)
    (acc : List (String × String)) :
    ((flatListFields fs parent_key).map Prod.fst).Nodup →
    (∀ x ∈ (flatListFields fs parent_key).map Prod.fst,
      x ∉ acc.map Prod.fst) →
    flattenLoop fs parent_key acc = acc ++ flatListFields fs parent_key := by
  induction fs, parent_key, acc using flattenLoop.induct with
  | case1 par items =>
      intro _ _
      rw [flattenLoop, flatListFields]
      simp
  | case2 key v rest par items ih =>
      intro h1 h2
      rw [flatListFields, List.map_cons] at h1 h2
      rw [List.nodup_cons] at h1
      rw [flattenLoop, flatListFields]
      have hfresh : joinKey par key ∉ items.map Prod.fst :=
        h2 _ (by simp)
      rw [pyDictSet_not_mem v hfresh] at ih ⊢
      rw [ih h1.2 ?_]
      · simp
      · intro x hx
        rw [List.map_append]
        simp only [List.mem_append, List.map_cons, List.map_nil,
          List.mem_singleton]
        rintro (hin | rfl)
        · exact h2 x (by simp [hx]) hin
        · exact h1.1 hx
  | case3 key sub rest par items ih1 ih2 =>
      intro h1 h2
      rw [flatListFields, List.map_append] at h1 h2
      rw [List.nodup_append] at h1
      obtain ⟨h1sub, h1rest, h1disj⟩ := h1
      rw [flattenLoop, flatListFields]
      have hsub_eq : flattenLoop sub (joinKey par key) [] =
          flatListFields sub (joinKey par key) := by
        rw [ih1 h1sub ?_]
        · simp
        · intro x _
          simp
      rw [hsub_eq] at ih2 ⊢
      have hmany : pyDictSetMany items (flatListFields sub (joinKey par key)) =
          items ++ flatListFields sub (joinKey par key) := by
        apply pyDictSetMany_fresh _ _ h1sub
        intro x hx
        exact h2 x (List.mem_append.mpr (Or.inl hx))
      rw [hmany] at ih2 ⊢
      rw [ih2 h1rest ?_]
      · simp
      · intro x hx
        rw [List.map_append]
        simp only [List.mem_append]
        rintro (hin | hin)
        · exact h2 x (List.mem_append.mpr (Or.inr hx)) hin
        · exact h1disj hin hx

/-! ### Insertion of one dotted leaf -/

/-- Cons cancellation for incomparability. -/
theorem pathIncomp_cons_cancel {k : String} {p q : List String}
    (h : pathIncomp (k :: p) (k :: q)) : pathIncomp p q := by
  constructor
  · intro hx
    exact h.1 ((pathExtends_cons_iff k k p q).mpr ⟨rfl, hx⟩)
  · intro hx
    exact h.2 ((pathExtends_cons_iff k k q p).mpr ⟨rfl, hx⟩)

/-- Inserting a leaf at a path incomparable with every existing leaf
path adds exactly that leaf and disturbs nothing else. -/
theorem leafAt_insertPath (p : List String) :
    ∀ (fs : List (String × J)) (v : String),
      (∀ q w, leafAtFields fs q = some w → pathIncomp p q) →
      p ≠ [] →
      ∀ q, leafAtFields (insertPath fs p v) q =
        if q = p then some v else leafAtFields fs q := by
  induction p with
  | nil =>
      intro fs v _ hne
      exact absurd rfl hne
  | cons k p' ihp =>
      intro fs v hpre _ q
      cases p' with
      | nil =>
          rw [show insertPath fs [k] v = pyDictSet fs k (J.str v) from by
            simp [insertPath]]
          cases q with
          | nil =>
              rw [leafAtFields.eq_1, if_neg (by simp), leafAtFields.eq_1]
          | cons k' q' =>
              by_cases hk : k' = k
              · subst hk
                rw [leafAtFields_lookup, pyDictGet_pyDictSet_self]
                cases q' with
                | nil =>
                    rw [if_pos rfl]
                    simp
                | cons a b =>
                    rw [if_neg (by simp)]
                    dsimp only
                    cases hleaf : leafAtFields fs (k' :: a :: b) with
                    | none => simp
                    | some w =>
                        exfalso
                        have hinc := hpre _ _ hleaf
                        exact hinc.1 ⟨a :: b, rfl⟩
              · rw [leafAtFields_lookup,
                  pyDictGet_pyDictSet_ne fs _ hk, ← leafAtFields_lookup,
                  if_neg (by simp [hk])]
      | cons k2 restP =>
          cases hg : pyDictGet fs k with
          | some jv =>
              cases jv with
              | str s =>
                  exfalso
                  have hleaf : leafAtFields fs [k] = some s := by
                    rw [leafAtFields_lookup, hg]
                    simp
                  have hinc := hpre _ _ hleaf
                  exact hinc.2 ⟨k2 :: restP, rfl⟩
              | obj sub =>
                  rw [show insertPath fs (k :: k2 :: restP) v =
                      pyDictSet fs k
                        (J.obj (insertPath sub (k2 :: restP) v)) from by
                    rw [insertPath, hg]]
                  cases q with
                  | nil =>
                      rw [leafAtFields.eq_1, if_neg (by simp),
                        leafAtFields.eq_1]
                  | cons k' q' =>
                      by_cases hk : k' = k
                      · subst hk
                        rw [leafAtFields_lookup, pyDictGet_pyDictSet_self]
                        dsimp only
                        have hpre' : ∀ q'' w,
                            leafAtFields sub q'' = some w →
                            pathIncomp (k2 :: restP) q'' := by
                          intro q'' w hq
                          have hq'' : q'' ≠ [] := by
                            rintro rfl
                            rw [leafAtFields.eq_1] at hq
                            exact Option.noConfusion hq
                          obtain ⟨a, b, rfl⟩ :=
                            List.exists_cons_of_ne_nil hq''
                          have hfs : leafAtFields fs (k' :: a :: b) =
                              some w := by
                            rw [leafAtFields_lookup, hg]
                            exact hq
                          exact pathIncomp_cons_cancel (hpre _ _ hfs)
                        rw [ihp sub v hpre' (by simp) q']
                        by_cases hq : q' = k2 :: restP
                        · rw [if_pos hq, if_pos (by rw [hq])]
                        · rw [if_neg hq, if_neg (by simp [hq]),
                            leafAtFields_lookup, hg]
                      · rw [leafAtFields_lookup,
                          pyDictGet_pyDictSet_ne fs _ hk,
                          ← leafAtFields_lookup, if_neg (by simp [hk])]
          | none =>
              rw [show insertPath fs (k :: k2 :: restP) v =
                  pyDictSet fs k (J.obj (insertPath [] (k2 :: restP) v)) from by
                rw [insertPath, hg]]
              cases q with
              | nil =>
                  rw [leafAtFields.eq_1, if_neg (by simp), leafAtFields.eq_1]
              | cons k' q' =>
                  by_cases hk : k' = k
                  · subst hk
                    rw [leafAtFields_lookup, pyDictGet_pyDictSet_self]
                    dsimp only
                    rw [ihp [] v (by
                        intro q'' w hq
                        rw [leafAtFields_nil] at hq
                        exact Option.noConfusion hq) (by simp) q']
                    by_cases hq : q' = k2 :: restP
                    · rw [if_pos hq, if_pos (by rw [hq])]
                    · rw [if_neg hq, if_neg (by simp [hq]),
                        leafAtFields_nil, leafAtFields_lookup, hg]
                  · rw [leafAtFields_lookup,
                      pyDictGet_pyDictSet_ne fs _ hk,
                      ← leafAtFields_lookup, if_neg (by simp [hk])]

/-! ### Unflattening a dict of incomparable dotted keys -/

/-- What `unflatten_json` produces: a leaf sits at path `q` exactly when
some dict entry has a key splitting to `q` — provided the keys' paths
are pairwise incomparable (no entry names a prefix of another). -/
theorem leafAt_unflatten (items : List (String × String)) :
    items.Pairwise (fun a b => pathIncomp (splitDots a.1) (splitDots b.1)) →
    ∀ q v, (leafAtFields (unflatten_json items) q = some v ↔
      ∃ key, (key, v) ∈ items ∧ splitDots key = q) := by
  induction items using List.reverseRecOn with
  | nil =>
      intro _ q v
      rw [show unflatten_json [] = [] from rfl, leafAtFields_nil]
      simp
  | append_singleton items last ih =>
      intro hinc q v
      obtain ⟨key, v0⟩ := last
      rw [List.pairwise_append] at hinc
      obtain ⟨h1, _, hcross⟩ := hinc
      have hunf : unflatten_json (items ++ [(key, v0)]) =
          insertPath (unflatten_json items) (splitDots key) v0 := by
        unfold unflatten_json
        rw [List.foldl_append]
        rfl
      have hpre : ∀ q' w, leafAtFields (unflatten_json items) q' = some w →
          pathIncomp (splitDots key) q' := by
        intro q' w hq
        obtain ⟨key', hmem, hsp⟩ := (ih h1 q' w).mp hq
        rw [← hsp]
        exact pathIncomp_symm
          (hcross (key', w) hmem (key, v0) (by simp))
      rw [hunf, leafAt_insertPath (splitDots key) (unflatten_json items) v0
        hpre (splitDots_ne_nil key) q]
      by_cases hq : q = splitDots key
      · rw [if_pos hq]
        constructor
        · intro h
          injection h with h
          exact ⟨key, by simp [h], hq.symm⟩
        · rintro ⟨key', hmem, hsp⟩
          rcases List.mem_append.mp hmem with hm | hm
          · exfalso
            have hic := hcross (key', v) hm (key, v0) (by simp)
            exact pathIncomp_ne hic (by rw [hsp, hq])
          · simp only [List.mem_singleton, Prod.mk.injEq] at hm
            rw [hm.2]
      · rw [if_neg hq, ih h1 q v]
        constructor
        · rintro ⟨key', hmem, hsp⟩
          exact ⟨key', List.mem_append.mpr (Or.inl hmem), hsp⟩
        · rintro ⟨key', hmem, hsp⟩
          rcases List.mem_append.mp hmem with hm | hm
          · exact ⟨key', hm, hsp⟩
          · exfalso
            simp only [List.mem_singleton, Prod.mk.injEq] at hm
            rw [hm.1] at hsp
            exact hq hsp.symm

/-- C8, amended: for every record that is well-formed for dotted-path
flattening — keys at every level non-empty, dot-free and unique per
object — unflattening the flattening yields a record with the same leaf
values at the same paths.  (For keys containing a dot the flattening is
ambiguous and the round trip moves the leaf, see the counterexample;
`unflatten_json` is modelled from the spec, the repository having no
unflatten function.) -/
theorem flatten_unflatten_roundtrip (fs : List (String × J))
    (hwf : wfFields fs = true) :
    ∀ path, leafAtFields (unflatten_json (flatten_json fs "")) path =
      leafAtFields fs path := by
  have hnd : ((flatListFields fs "").map Prod.fst).Nodup :=
    flatList_keys_nodup fs hwf ""
  have hflat : flatten_json fs "" = flatListFields fs "" := by
    unfold flatten_json
    rw [flattenLoop_eq_append fs "" [] hnd (by simp)]
    simp
  have hleq := flatList_eq_leaves fs ""
  have hgood := leaves_good fs hwf
  have hsplit_key : ∀ pv ∈ leavesFields fs,
      splitDots (joinPath "" pv.1) = pv.1 := by
    intro pv hpv
    apply splitDots_joinPath_top
    · obtain ⟨k', r', hp, _⟩ := leaves_head_mem fs pv.1 pv.2 hpv
      rw [hp]
      simp
    · intro c hc
      exact hgood pv.1 pv.2 hpv c hc
  have hincL := leaves_incomp fs hwf
  rw [List.pairwise_map] at hincL
  have hinc : (flatten_json fs "").Pairwise
      (fun a b => pathIncomp (splitDots a.1) (splitDots b.1)) := by
    rw [hflat, hleq, List.pairwise_map]
    refine hincL.imp_of_mem ?_
    intro a b ha hb hab
    dsimp only
    rw [hsplit_key a ha, hsplit_key b hb]
    exact hab
  have hchar := leafAt_unflatten (flatten_json fs "") hinc
  have hiff := leafAt_iff_leaves fs hwf
  intro path
  cases hres : leafAtFields fs path with
  | some v =>
      refine (hchar path v).mpr ⟨joinPath "" path, ?_, ?_⟩
      · rw [hflat, hleq]
        exact List.mem_map.mpr ⟨(path, v), (hiff path v).mp hres, rfl⟩
      · exact hsplit_key (path, v) ((hiff path v).mp hres)
  | none =>
      cases hlhs : leafAtFields (unflatten_json (flatten_json fs "")) path with
      | none => rfl
      | some v =>
          exfalso
          obtain ⟨key, hmem, hsp⟩ := (hchar path v).mp hlhs
          rw [hflat, hleq] at hmem
          obtain ⟨⟨p0, v0⟩, hpl, heq⟩ := List.mem_map.mp hmem
          rw [Prod.mk.injEq] at heq
          have hp0 : p0 = path := by
            rw [← hsp, ← heq.1]
            exact (hsplit_key (p0, v0) hpl).symm
          have hv : v0 = v := heq.2
          rw [hp0, hv] at hpl
          have := (hiff path v).mpr hpl
          rw [hres] at this
          exact Option.noConfusion this

/-- C8, witness: the round trip preserves the leaves of a concrete
well-formed two-field record, checked at the nested path. -/
theorem flatten_unflatten_roundtrip_witness :
    leafAtFields (unflatten_json (flatten_json
        [("a", J.obj [("b", J.str "x")]), ("c", J.str "y")] ""))
      ["a", "b"] =
      leafAtFields [("a", J.obj [("b", J.str "x")]), ("c", J.str "y")]
        ["a", "b"] :=
  flatten_unflatten_roundtrip
    [("a", J.obj [("b", J.str "x")]), ("c", J.str "y")]
    (by simp [wfFields, goodKey]) ["a", "b"]

/-- The dict comprehension of `normalize_keys` merges sibling keys that
normalize to the same string: on the record with keys a-apostrophe
(U+0027) and a-gershayim (U+05F4) — both normalizing to the key with a
straight double quote U+0022 — the later empty object overwrites the
earlier leaf, the flattened ground truth is empty, and validating the
record against itself raises `ZeroDivisionError`, matching CPython. -/
theorem normalize_keys_merge_raises :
    normFields [("a\u0027", J.str "1"), ("a\u05F4", J.obj [])] =
      [("a\u0022", J.obj [])] ∧
    validate_with_ground_truth [("a\u0027", J.str "1"), ("a\u05F4", J.obj [])]
      [("a\u0027", J.str "1"), ("a\u05F4", J.obj [])] =
      Except.error "ZeroDivisionError: division by zero" := by
  have h1 : normalizeKey "a\u0027" = "a\u0022" := by decide
  have h2 : normalizeKey "a\u05F4" = "a\u0022" := by decide
  have hnf : normFields [("a\u0027", J.str "1"), ("a\u05F4", J.obj [])] =
      [("a\u0022", J.obj [])] := by
    simp [normFields, normFieldsLoop, h1, h2, pyDictSet, pyDictGet]
  refine ⟨hnf, ?_⟩
  simp [validate_with_ground_truth, hnf, flatten_json, flattenLoop,
    pyDictSetMany]
